import Mathlib

/-!
Verification of the valuation-service core against its specification.

The development shallowly embeds the Rust sources:
* the FIFO lot-accounting engine (`compute_lots_from_db` and the portfolio
  builder `build_portfolio_update_from_lots` in `src/bin/valuation-service.rs`),
* the risk engine (`RiskEngine::calculate_var` and
  `RiskEngine::calculate_expected_shortfall` in `src/services/risk.rs`),
* the portfolio valuator (`PortfolioValuationService` in
  `src/services/portfolio.rs`),
* the analytic pricer (`BlackScholesModel` in `src/models.rs`).

`f64` quantities and prices are modelled as exact rationals (for the code that
only adds, subtracts, compares and multiplies) or as real numbers (for the
transcendental option formulas); `f64::EPSILON` becomes the rational constant
`eps = 2 ^ (-52)`.  Fallible Rust functions returning `Result` are modelled
with `Except`.  Database access is modelled by passing the fetched, ordered
row list directly.
-/

namespace ValuationService

/-- Machine epsilon of `f64` (`f64::EPSILON = 2^-52`), as an exact rational. -/
def eps : ℚ := 1 / 2 ^ 52

/-- One row of the `transactions` table, as consumed by the lot engine
(`SELECT type, symbol, quantity, price, ... ORDER BY timestamp ASC, id ASC`).
The list handed to the replay is assumed already sorted by `(timestamp, id)`,
exactly as the SQL produces it, so the timestamp and id columns are not
carried further. -/
structure Txn where
  kind : String
  symbol : String
  qty : ℚ
  price : Option ℚ

/-- A BUY row. -/
def mkBuy (sym : String) (q : ℚ) (p : Option ℚ) : Txn := ⟨"BUY", sym, q, p⟩

/-- A SELL row (the engine never reads the price of a SELL). -/
def mkSell (sym : String) (q : ℚ) : Txn := ⟨"SELL", sym, q, none⟩

/-- The FIFO consumption loop of the `"SELL"` arm of `compute_lots_from_db`
(`valuation-service.rs:527-539`): while `to_sell > 0` and lots remain, a head
lot with `lot_qty <= to_sell + EPSILON` is zeroed out and `to_sell` decreases
by it; otherwise the head lot is reduced by `to_sell` and the loop stops. -/
def sell_pass (toSell : ℚ) : List (ℚ × ℚ) → List (ℚ × ℚ)
  | [] => []
  | (q, p) :: rest =>
    if 0 < toSell then
      if q ≤ toSell + eps then (0, p) :: sell_pass (toSell - q) rest
      else (q - toSell, p) :: rest
    else (q, p) :: rest

/-- The complete `"SELL"` arm: clamp the quantity at zero
(`qty.max(0.0)`), run the FIFO loop, then
`entry.retain(|(q, _)| *q > f64::EPSILON)`. -/
def apply_sell (qty : ℚ) (lots : List (ℚ × ℚ)) : List (ℚ × ℚ) :=
  (sell_pass (max qty 0) lots).filter (fun lp => decide (eps < lp.1))

/-- One iteration of the replay loop of `compute_lots_from_db`
(`valuation-service.rs:511-545`): `BUY` with positive quantity appends a lot
`(qty, price-or-0)`, `SELL` runs `apply_sell`, unknown kinds are skipped.
The `HashMap` is modelled as a total function defaulting to `[]`, which is
what `entry(symbol).or_default()` provides. -/
def apply_txn (m : String → List (ℚ × ℚ)) (t : Txn) (s : String) : List (ℚ × ℚ) :=
  if t.kind = "BUY" then
    if s = t.symbol then
      (if 0 < t.qty then m s ++ [(t.qty, t.price.getD 0)] else m s)
    else m s
  else if t.kind = "SELL" then
    (if s = t.symbol then apply_sell t.qty (m s) else m s)
  else m s

/-- `compute_lots_from_db` (`valuation-service.rs:501-547`): fold the ordered
transaction rows over the empty lot map. -/
def compute_lots_from_db (txns : List Txn) : String → List (ℚ × ℚ) :=
  txns.foldl apply_txn (fun _ => [])

/-- Total remaining quantity of a lot list. -/
def total_remaining (lots : List (ℚ × ℚ)) : ℚ := (lots.map Prod.fst).sum

/-- Claim-side SELL step, following the words of claim C1 literally: consume
from the head, dropping every head lot whose remaining is at most the
still-unsold quantity and otherwise reducing the head lot in place (no
epsilon anywhere).  Used only to exhibit the counterexample to C1. -/
def sell_claimed (unsold : ℚ) : List (ℚ × ℚ) → List (ℚ × ℚ)
  | [] => []
  | (r, c) :: rest =>
    if 0 < unsold then
      if r ≤ unsold then sell_claimed (unsold - r) rest
      else (r - unsold, c) :: rest
    else (r, c) :: rest

/-- Claim-side SELL step for the amended claim C1: as `sell_claimed`, but a
head lot is dropped already when its remaining is at most the still-unsold
quantity plus `eps`, and afterwards every lot with remaining at most `eps`
is removed. -/
def sell_go (unsold : ℚ) : List (ℚ × ℚ) → List (ℚ × ℚ)
  | [] => []
  | (r, c) :: rest =>
    if 0 < unsold then
      if r ≤ unsold + eps then sell_go (unsold - r) rest
      else (r - unsold, c) :: rest
    else (r, c) :: rest

/-- Amended-claim SELL description: scan with `sell_go`, then drop the
sub-epsilon dust. -/
def sell_described (q : ℚ) (lots : List (ℚ × ℚ)) : List (ℚ × ℚ) :=
  (sell_go q lots).filter (fun lp => decide (eps < lp.1))

/- ### Basic lemmas about the lot engine -/

theorem sell_pass_nonpos (t : ℚ) (ht : ¬ 0 < t) (lots : List (ℚ × ℚ)) :
    sell_pass t lots = lots := by
  cases lots with
  | nil => rfl
  | cons hd tl =>
    obtain ⟨q, p⟩ := hd
    simp [sell_pass, ht]

theorem filter_sell_pass_eq_sell_described (t : ℚ) (lots : List (ℚ × ℚ)) :
    (sell_pass t lots).filter (fun lp => decide (eps < lp.1)) =
      (sell_go t lots).filter (fun lp => decide (eps < lp.1)) := by
  induction lots generalizing t with
  | nil => rfl
  | cons hd tl ih =>
    obtain ⟨q, p⟩ := hd
    by_cases h0 : 0 < t
    · by_cases hq : q ≤ t + eps
      · have heps : ¬ eps < (0 : ℚ) := by norm_num [eps]
        simp only [sell_pass, sell_go, if_pos h0, if_pos hq, List.filter_cons]
        simp [heps, ih]
      · simp [sell_pass, sell_go, h0, hq]
    · simp [sell_pass, sell_go, h0]

theorem apply_sell_eq_sell_described (q : ℚ) (hq : 0 < q) (lots : List (ℚ × ℚ)) :
    apply_sell q lots = sell_described q lots := by
  unfold apply_sell sell_described
  rw [max_eq_left hq.le, filter_sell_pass_eq_sell_described]

theorem compute_lots_snoc (txns : List Txn) (t : Txn) :
    compute_lots_from_db (txns ++ [t]) =
      apply_txn (compute_lots_from_db txns) t := by
  unfold compute_lots_from_db
  rw [List.foldl_append]
  rfl

theorem compute_lots_snoc_buy (txns : List Txn) (sym : String) (q : ℚ)
    (p : Option ℚ) (hq : 0 < q) :
    compute_lots_from_db (txns ++ [mkBuy sym q p]) sym =
      compute_lots_from_db txns sym ++ [(q, p.getD 0)] := by
  rw [compute_lots_snoc]
  simp [apply_txn, mkBuy, hq]

theorem compute_lots_snoc_sell (txns : List Txn) (sym : String) (q : ℚ) :
    compute_lots_from_db (txns ++ [mkSell sym q]) sym =
      apply_sell q (compute_lots_from_db txns sym) := by
  rw [compute_lots_snoc]
  simp [apply_txn, mkSell]

/-- Generic invariant: a lower bound `c ≤ eps` on lot quantities is preserved
by the replay, provided every applied `BUY` quantity exceeds `c`.  The `SELL`
arm preserves it for free thanks to the `retain (q > EPSILON)` filter. -/
theorem lots_gt_aux (c : ℚ) (hc : c ≤ eps) (txns : List Txn)
    (hb : ∀ t ∈ txns, t.kind = "BUY" → 0 < t.qty → c < t.qty) :
    ∀ m : String → List (ℚ × ℚ),
      (∀ s, ∀ lp ∈ m s, c < lp.1) →
      ∀ s, ∀ lp ∈ txns.foldl apply_txn m s, c < lp.1 := by
  induction txns with
  | nil => intro m hm; exact hm
  | cons t rest ih =>
    intro m hm
    have hbt : t.kind = "BUY" → 0 < t.qty → c < t.qty :=
      hb t (List.mem_cons_self _ _)
    have hbrest : ∀ u ∈ rest, u.kind = "BUY" → 0 < u.qty → c < u.qty :=
      fun u hu => hb u (List.mem_cons_of_mem _ hu)
    refine ih hbrest (apply_txn m t) ?_
    intro s lp hlp
    unfold apply_txn at hlp
    by_cases hk : t.kind = "BUY"
    · rw [if_pos hk] at hlp
      by_cases hs : s = t.symbol
      · rw [if_pos hs] at hlp
        by_cases hq : 0 < t.qty
        · rw [if_pos hq] at hlp
          rcases List.mem_append.mp hlp with h | h
          · exact hm s lp h
          · simp only [List.mem_singleton] at h
            rw [h]
            exact hbt hk hq
        · rw [if_neg hq] at hlp
          exact hm s lp hlp
      · rw [if_neg hs] at hlp
        exact hm s lp hlp
    · rw [if_neg hk] at hlp
      by_cases hk2 : t.kind = "SELL"
      · rw [if_pos hk2] at hlp
        by_cases hs : s = t.symbol
        · rw [if_pos hs] at hlp
          have := List.of_mem_filter hlp
          have hlt : eps < lp.1 := of_decide_eq_true this
          exact lt_of_le_of_lt hc hlt
        · rw [if_neg hs] at hlp
          exact hm s lp hlp
      · rw [if_neg hk2] at hlp
        exact hm s lp hlp

/-- Every lot of a replayed lot map has strictly positive remaining
quantity. -/
theorem lots_pos (txns : List Txn) (sym : String) :
    ∀ lp ∈ compute_lots_from_db txns sym, 0 < lp.1 := by
  have h0 : (0 : ℚ) ≤ eps := by norm_num [eps]
  exact lots_gt_aux 0 h0 txns (fun t _ _ hq => hq) (fun _ => [])
    (by intro s lp h; simp at h) sym

theorem total_remaining_nonneg (lots : List (ℚ × ℚ))
    (h : ∀ lp ∈ lots, 0 < lp.1) : 0 ≤ total_remaining lots := by
  unfold total_remaining
  induction lots with
  | nil => simp
  | cons hd tl ih =>
    simp only [List.map_cons, List.sum_cons]
    have h1 : 0 < hd.1 := h hd (List.mem_cons_self _ _)
    have h2 : 0 ≤ (tl.map Prod.fst).sum := ih (fun lp hlp => h lp (List.mem_cons_of_mem _ hlp))
    linarith

/-- A SELL whose quantity strictly exceeds the total open quantity wipes the
lot list. -/
theorem apply_sell_all (lots : List (ℚ × ℚ)) (hpos : ∀ lp ∈ lots, 0 < lp.1)
    (q : ℚ) (hq : total_remaining lots < q) : apply_sell q lots = [] := by
  have h0 : 0 ≤ total_remaining lots := total_remaining_nonneg lots hpos
  have hq0 : 0 < q := lt_of_le_of_lt h0 hq
  unfold apply_sell
  rw [max_eq_left hq0.le]
  clear h0 hq0
  induction lots generalizing q with
  | nil => rfl
  | cons hd tl ih =>
    obtain ⟨a, p⟩ := hd
    have ha : 0 < a := hpos (a, p) (List.mem_cons_self _ _)
    have htl : ∀ lp ∈ tl, 0 < lp.1 := fun lp hlp => hpos lp (List.mem_cons_of_mem _ hlp)
    have htot : total_remaining tl < q - a := by
      have : total_remaining ((a, p) :: tl) = a + total_remaining tl := by
        simp [total_remaining]
      linarith [hq, this.symm.le]
    have h0tl : 0 ≤ total_remaining tl := total_remaining_nonneg tl htl
    have hq0 : 0 < q := by linarith
    have hdrop : a ≤ q + eps := by
      have : (0:ℚ) < eps := by norm_num [eps]
      linarith
    simp only [sell_pass, if_pos hq0, if_pos hdrop, List.filter_cons]
    have heps : ¬ eps < (0 : ℚ) := by norm_num [eps]
    simp only [decide_eq_true_eq, heps, if_false]
    exact ih htl (q - a) htot

/- ### Whole-number quantities: exact conservation -/

/-- A rational that is a whole (non-negative integer) number. -/
def IsWholeQty (q : ℚ) : Prop := q.den = 1 ∧ 0 ≤ q

instance (q : ℚ) : Decidable (IsWholeQty q) := by
  unfold IsWholeQty
  infer_instance

theorem exists_nat_of_whole (q : ℚ) (h : IsWholeQty q) : ∃ n : ℕ, q = (n : ℚ) := by
  obtain ⟨hden, hpos⟩ := h
  refine ⟨q.num.toNat, ?_⟩
  have hnum : (q.num : ℚ) = q := (Rat.den_eq_one_iff q).mp hden
  have h0 : 0 ≤ q.num := by
    rw [← Rat.num_nonneg] at hpos
    exact hpos
  rw [← hnum]
  norm_cast
  exact (Int.toNat_of_nonneg h0).symm

/-- All lot quantities are positive whole numbers. -/
def LotsNat (lots : List (ℚ × ℚ)) : Prop :=
  ∀ lp ∈ lots, ∃ k : ℕ, lp.1 = (k : ℚ) ∧ 1 ≤ k

theorem total_remaining_nil : total_remaining [] = 0 := rfl

theorem total_remaining_cons (q p : ℚ) (tl : List (ℚ × ℚ)) :
    total_remaining ((q, p) :: tl) = q + total_remaining tl := by
  simp [total_remaining]

theorem filter_eps_of_nat (l : List (ℚ × ℚ)) (h : LotsNat l) :
    l.filter (fun lp => decide (eps < lp.1)) = l := by
  refine List.filter_eq_self.mpr ?_
  intro lp hlp
  obtain ⟨k, hk, hk1⟩ := h lp hlp
  have : eps < lp.1 := by
    rw [hk]
    have : (1 : ℚ) ≤ (k : ℚ) := by exact_mod_cast hk1
    have heps1 : eps < (1 : ℚ) := by norm_num [eps]
    linarith
  simpa using this

theorem sell_pass_nat (lots : List (ℚ × ℚ)) (h : LotsNat lots) (n : ℕ) :
    LotsNat ((sell_pass (n : ℚ) lots).filter (fun lp => decide (eps < lp.1))) ∧
      ((n : ℚ) ≤ total_remaining lots →
        total_remaining ((sell_pass (n : ℚ) lots).filter (fun lp => decide (eps < lp.1))) =
          total_remaining lots - n) := by
  induction lots generalizing n with
  | nil =>
    refine ⟨by intro lp hlp; simp [sell_pass] at hlp, ?_⟩
    intro hle
    have h0 : (0 : ℚ) ≤ (n : ℚ) := by positivity
    have : (n : ℚ) = 0 := le_antisymm (by simpa [total_remaining] using hle) h0
    simp [sell_pass, total_remaining, this]
  | cons hd tl ih =>
    obtain ⟨q, p⟩ := hd
    obtain ⟨a, ha, ha1⟩ := h (q, p) (List.mem_cons_self _ _)
    simp only at ha
    have htl : LotsNat tl := fun lp hlp => h lp (List.mem_cons_of_mem _ hlp)
    rcases Nat.eq_zero_or_pos n with hn0 | hnpos
    · subst hn0
      have hguard : ¬ (0 : ℚ) < (0 : ℕ) := by norm_num
      simp only [Nat.cast_zero] at *
      rw [show sell_pass 0 ((q, p) :: tl) = (q, p) :: tl from
        sell_pass_nonpos 0 (by norm_num) _]
      rw [filter_eps_of_nat _ h]
      exact ⟨h, fun _ => by ring⟩
    · have hguard : (0 : ℚ) < (n : ℚ) := by exact_mod_cast hnpos
      by_cases hcmp : a ≤ n
      · -- the head lot is fully consumed
        have hdrop : q ≤ (n : ℚ) + eps := by
          rw [ha]
          have : (a : ℚ) ≤ (n : ℚ) := by exact_mod_cast hcmp
          have : (0 : ℚ) ≤ eps := by norm_num [eps]
          linarith
        have hsub : ((n - a : ℕ) : ℚ) = (n : ℚ) - a := by
          push_cast [Nat.cast_sub hcmp]
          ring
        have heq : sell_pass (n : ℚ) ((q, p) :: tl) =
            (0, p) :: sell_pass ((n - a : ℕ) : ℚ) tl := by
          rw [sell_pass]
          rw [if_pos hguard, if_pos hdrop, hsub, ha]
        obtain ⟨ihnat, ihtot⟩ := ih htl (n - a)
        have hfilter :
            (sell_pass (n : ℚ) ((q, p) :: tl)).filter (fun lp => decide (eps < lp.1)) =
              (sell_pass ((n - a : ℕ) : ℚ) tl).filter (fun lp => decide (eps < lp.1)) := by
          rw [heq, List.filter_cons]
          have : ¬ eps < (0 : ℚ) := by norm_num [eps]
          simp [this]
        refine ⟨by rw [hfilter]; exact ihnat, ?_⟩
        intro hle
        rw [total_remaining_cons] at hle
        have hle' : ((n - a : ℕ) : ℚ) ≤ total_remaining tl := by
          rw [hsub, ha] at *
          linarith
        rw [hfilter, ihtot hle', total_remaining_cons, hsub, ha]
        ring
      · -- the head lot is only reduced
        have hlt : (n : ℕ) < a := Nat.lt_of_not_le hcmp
        have hkeep : ¬ q ≤ (n : ℚ) + eps := by
          rw [ha]
          have h1 : (n : ℚ) + 1 ≤ (a : ℚ) := by exact_mod_cast hlt
          have h2 : eps < (1 : ℚ) := by norm_num [eps]
          push_neg
          linarith
        have heq : sell_pass (n : ℚ) ((q, p) :: tl) = (q - n, p) :: tl := by
          rw [sell_pass]
          rw [if_pos hguard, if_neg hkeep]
        have hhead : q - (n : ℚ) = ((a - n : ℕ) : ℚ) := by
          rw [ha]
          push_cast [Nat.cast_sub hlt.le]
          ring
        have hhead1 : 1 ≤ a - n := by omega
        have hnat : LotsNat ((q - n, p) :: tl) := by
          intro lp hlp
          rcases List.mem_cons.mp hlp with hl | hl
          · exact ⟨a - n, by rw [hl]; exact hhead, hhead1⟩
          · exact htl lp hl
        have hfilter :
            (sell_pass (n : ℚ) ((q, p) :: tl)).filter (fun lp => decide (eps < lp.1)) =
              (q - n, p) :: tl := by
          rw [heq, filter_eps_of_nat _ hnat]
        refine ⟨by rw [hfilter]; exact hnat, ?_⟩
        intro _
        rw [hfilter, total_remaining_cons, total_remaining_cons]
        ring

theorem apply_sell_nat (lots : List (ℚ × ℚ)) (h : LotsNat lots) (n : ℕ) :
    LotsNat (apply_sell (n : ℚ) lots) ∧
      ((n : ℚ) ≤ total_remaining lots →
        total_remaining (apply_sell (n : ℚ) lots) = total_remaining lots - n) := by
  have hmax : max ((n : ℚ)) 0 = (n : ℚ) := max_eq_left (by positivity)
  unfold apply_sell
  rw [hmax]
  exact sell_pass_nat lots h n

/-- Replaying whole-number transactions keeps every lot a positive whole
number. -/
theorem lots_nat_aux (txns : List Txn) (hw : ∀ t ∈ txns, IsWholeQty t.qty) :
    ∀ m : String → List (ℚ × ℚ),
      (∀ s, LotsNat (m s)) →
      ∀ s, LotsNat (txns.foldl apply_txn m s) := by
  induction txns with
  | nil => intro m hm; exact hm
  | cons t rest ih =>
    intro m hm
    have hwt : IsWholeQty t.qty := hw t (List.mem_cons_self _ _)
    have hwrest : ∀ u ∈ rest, IsWholeQty u.qty := fun u hu => hw u (List.mem_cons_of_mem _ hu)
    refine ih hwrest (apply_txn m t) ?_
    intro s
    unfold apply_txn
    obtain ⟨n, hn⟩ := exists_nat_of_whole t.qty hwt
    by_cases hk : t.kind = "BUY"
    · rw [if_pos hk]
      by_cases hs : s = t.symbol
      · rw [if_pos hs]
        by_cases hq : 0 < t.qty
        · rw [if_pos hq]
          intro lp hlp
          rcases List.mem_append.mp hlp with hl | hl
          · exact hm s lp hl
          · simp only [List.mem_singleton] at hl
            refine ⟨n, by rw [hl, hn], ?_⟩
            rw [hn] at hq
            exact_mod_cast hq
        · rw [if_neg hq]
          exact hm s
      · rw [if_neg hs]
        exact hm s
    · rw [if_neg hk]
      by_cases hk2 : t.kind = "SELL"
      · rw [if_pos hk2]
        by_cases hs : s = t.symbol
        · rw [if_pos hs, hn]
          exact (apply_sell_nat (m s) (hm s) n).1
        · rw [if_neg hs]
          exact hm s
      · rw [if_neg hk2]
        exact hm s

theorem lots_nat (txns : List Txn) (hw : ∀ t ∈ txns, IsWholeQty t.qty) (sym : String) :
    LotsNat (compute_lots_from_db txns sym) :=
  lots_nat_aux txns hw (fun _ => []) (fun _ lp h => by simp at h) sym

/-- Sum of the `BUY` quantities of a symbol over a transaction list. -/
def total_buy (sym : String) (txns : List Txn) : ℚ :=
  ((txns.filter (fun t => decide (t.kind = "BUY" ∧ t.symbol = sym))).map Txn.qty).sum

/-- Sum of the `SELL` quantities of a symbol over a transaction list. -/
def total_sell (sym : String) (txns : List Txn) : ℚ :=
  ((txns.filter (fun t => decide (t.kind = "SELL" ∧ t.symbol = sym))).map Txn.qty).sum

theorem total_buy_snoc (sym : String) (txns : List Txn) (t : Txn) :
    total_buy sym (txns ++ [t]) =
      total_buy sym txns + (if t.kind = "BUY" ∧ t.symbol = sym then t.qty else 0) := by
  unfold total_buy
  rw [List.filter_append]
  by_cases h : t.kind = "BUY" ∧ t.symbol = sym
  · simp [h]
  · simp [h]

theorem total_sell_snoc (sym : String) (txns : List Txn) (t : Txn) :
    total_sell sym (txns ++ [t]) =
      total_sell sym txns + (if t.kind = "SELL" ∧ t.symbol = sym then t.qty else 0) := by
  unfold total_sell
  rw [List.filter_append]
  by_cases h : t.kind = "SELL" ∧ t.symbol = sym
  · simp [h]
  · simp [h]

theorem total_remaining_append (l : List (ℚ × ℚ)) (q p : ℚ) :
    total_remaining (l ++ [(q, p)]) = total_remaining l + q := by
  simp [total_remaining]

/-- Exact conservation for whole-number logs that never oversell: the total
remaining quantity equals buys minus sells. -/
theorem conservation_of_whole (txns : List Txn) (sym : String)
    (hw : ∀ t ∈ txns, IsWholeQty t.qty)
    (hp : ∀ k ≤ txns.length, total_sell sym (txns.take k) ≤ total_buy sym (txns.take k)) :
    total_remaining (compute_lots_from_db txns sym) =
      total_buy sym txns - total_sell sym txns := by
  induction txns using List.reverseRecOn with
  | nil => simp [compute_lots_from_db, total_remaining, total_buy, total_sell]
  | append_singleton ys t ih =>
    have hwys : ∀ u ∈ ys, IsWholeQty u.qty :=
      fun u hu => hw u (List.mem_append.mpr (Or.inl hu))
    have hwt : IsWholeQty t.qty := hw t (List.mem_append.mpr (Or.inr (List.mem_singleton_self _)))
    have hpys : ∀ k ≤ ys.length, total_sell sym (ys.take k) ≤ total_buy sym (ys.take k) := by
      intro k hk
      have h1 : (ys ++ [t]).take k = ys.take k := List.take_append_of_le_length hk
      have := hp k (by simp only [List.length_append, List.length_singleton]; omega)
      rwa [h1] at this
    have ihv := ih hwys hpys
    have hfull : total_sell sym (ys ++ [t]) ≤ total_buy sym (ys ++ [t]) := by
      have := hp (ys ++ [t]).length le_rfl
      rwa [List.take_length] at this
    have hlots := compute_lots_snoc ys t
    obtain ⟨n, hn⟩ := exists_nat_of_whole t.qty hwt
    rw [total_buy_snoc, total_sell_snoc]
    rw [total_buy_snoc, total_sell_snoc] at hfull
    by_cases hk : t.kind = "BUY"
    · have hnotsell : ¬ (t.kind = "SELL" ∧ t.symbol = sym) := by
        intro h
        rw [hk] at h
        exact absurd h.1 (by intro h2; exact (by simp at h2 : False))
      by_cases hs : sym = t.symbol
      · have hcond : t.kind = "BUY" ∧ t.symbol = sym := ⟨hk, hs.symm⟩
        rw [hlots.symm] at *
        rw [compute_lots_snoc, ]
        unfold apply_txn
        rw [if_pos hk, if_pos hs]
        by_cases hq : 0 < t.qty
        · rw [if_pos hq, total_remaining_append, ihv, if_pos hcond, if_neg hnotsell]
          ring
        · have hq0 : t.qty = 0 := le_antisymm (not_lt.mp hq) hwt.2
          rw [if_neg hq, ihv, if_pos hcond, if_neg hnotsell, hq0]
          ring
      · have hcond : ¬ (t.kind = "BUY" ∧ t.symbol = sym) := by
          intro h
          exact hs h.2.symm
        rw [compute_lots_snoc]
        unfold apply_txn
        rw [if_pos hk, if_neg hs, ihv, if_neg hcond, if_neg hnotsell]
        ring
    · by_cases hk2 : t.kind = "SELL"
      · have hnotbuy : ¬ (t.kind = "BUY" ∧ t.symbol = sym) := fun h => hk h.1
        by_cases hs : sym = t.symbol
        · have hcond : t.kind = "SELL" ∧ t.symbol = sym := ⟨hk2, hs.symm⟩
          rw [if_neg hnotbuy, if_pos hcond] at hfull ⊢
          have hqle : t.qty ≤ total_remaining (compute_lots_from_db ys sym) := by
            have hys_full : total_sell sym ys ≤ total_buy sym ys := by
              have := hpys ys.length le_rfl
              rwa [List.take_length] at this
            rw [ihv]
            linarith
          rw [compute_lots_snoc]
          unfold apply_txn
          rw [if_neg hk, if_pos hk2, if_pos hs, hn]
          have hnat := lots_nat ys hwys sym
          have := (apply_sell_nat _ hnat n).2 (by rw [← hn]; exact hqle)
          rw [this, ihv, ← hn]
          ring
        · have hcond : ¬ (t.kind = "SELL" ∧ t.symbol = sym) := by
            intro h
            exact hs h.2.symm
          rw [compute_lots_snoc]
          unfold apply_txn
          rw [if_neg hk, if_pos hk2, if_neg hs, ihv, if_neg hnotbuy, if_neg hcond]
          ring
      · have h1 : ¬ (t.kind = "BUY" ∧ t.symbol = sym) := fun h => hk h.1
        have h2 : ¬ (t.kind = "SELL" ∧ t.symbol = sym) := fun h => hk2 h.1
        rw [compute_lots_snoc]
        unfold apply_txn
        rw [if_neg hk, if_neg hk2, ihv, if_neg h1, if_neg h2]
        ring

/- ### Claims about the lot engine -/

/-- C1 (counterexample): the claim's SELL rule — drop a head lot exactly when
its remaining is at most the still-unsold quantity — disagrees with the code.
For the log `[BUY (1 + 2^-53) A @5, SELL 1 A]` the head lot's remaining
`1 + 2^-53` strictly exceeds the unsold quantity `1`, so the claim demands the
lot be reduced in place to `(2^-53, 5)`; the code, whose comparison is
`lot_qty <= to_sell + EPSILON`, drops it entirely and leaves no lot. -/
theorem claim_C1_counterexample :
    compute_lots_from_db [mkBuy "A" (1 + 1 / 2 ^ 53) (some 5), mkSell "A" 1] "A" = [] ∧
    sell_claimed 1 [(1 + 1 / 2 ^ 53, 5)] = [(1 / 2 ^ 53, 5)] ∧
    ([] : List (ℚ × ℚ)) ≠ [(1 / 2 ^ 53, 5)] := by
  refine ⟨?_, ?_, by simp⟩
  · norm_num [compute_lots_from_db, apply_txn, apply_sell, sell_pass, eps, mkBuy, mkSell,
      List.foldl]
    all_goals decide
  · norm_num [sell_claimed]

/-- C1 (amended): replaying the ordered log produces per-symbol FIFO lots:
a BUY with quantity `q > 0` appends the lot `(q, price-or-0)` at the tail;
a SELL with `q > 0` consumes from the head, dropping every head lot whose
remaining is at most the still-unsold quantity *plus machine epsilon* and
otherwise reducing the head lot in place, after which every lot with
remaining at most epsilon is removed; the log
`[BUY 100 AAPL @150, BUY 50 AAPL @160, SELL 120 AAPL]` yields exactly the
lot list `[(30, 160)]`. -/
theorem claim_C1_amended :
    (∀ (txns : List Txn) (sym : String) (q : ℚ) (p : Option ℚ), 0 < q →
        compute_lots_from_db (txns ++ [mkBuy sym q p]) sym =
          compute_lots_from_db txns sym ++ [(q, p.getD 0)]) ∧
    (∀ (txns : List Txn) (sym : String) (q : ℚ), 0 < q →
        compute_lots_from_db (txns ++ [mkSell sym q]) sym =
          sell_described q (compute_lots_from_db txns sym)) ∧
    compute_lots_from_db
        [mkBuy "AAPL" 100 (some 150), mkBuy "AAPL" 50 (some 160), mkSell "AAPL" 120]
        "AAPL" = [(30, 160)] := by
  refine ⟨compute_lots_snoc_buy, ?_, ?_⟩
  · intro txns sym q hq
    rw [compute_lots_snoc_sell, apply_sell_eq_sell_described q hq]
  · norm_num [compute_lots_from_db, apply_txn, apply_sell, sell_pass, eps, mkBuy, mkSell,
      List.foldl]
    all_goals decide

/-- C1 (witness): the amended SELL characterisation instantiated on a
concrete log. -/
theorem claim_C1_witness :
    compute_lots_from_db ([mkBuy "A" 7 (some 3)] ++ [mkSell "A" 2]) "A" =
      sell_described 2 (compute_lots_from_db [mkBuy "A" 7 (some 3)] "A") :=
  claim_C1_amended.2.1 [mkBuy "A" 7 (some 3)] "A" 2 (by norm_num)

/-- C2 (counterexample): the claimed closed formula
`Σ remaining = Σ BUY − min(Σ SELL, Σ BUY)` ignores transaction order.  For the
log `[SELL 5 A, BUY 10 A @1]` the oversold SELL hits an empty book and is
discarded, so the replay leaves total remaining `10`, while the formula
predicts `10 − min(5, 10) = 5`. -/
theorem claim_C2_counterexample :
    total_remaining (compute_lots_from_db [mkSell "A" 5, mkBuy "A" 10 (some 1)] "A") = 10 ∧
    total_buy "A" [mkSell "A" 5, mkBuy "A" 10 (some 1)] -
        min (total_sell "A" [mkSell "A" 5, mkBuy "A" 10 (some 1)])
          (total_buy "A" [mkSell "A" 5, mkBuy "A" 10 (some 1)]) = 5 ∧
    (10 : ℚ) ≠ 5 := by
  refine ⟨?_, ?_, by norm_num⟩
  · norm_num [compute_lots_from_db, apply_txn, apply_sell, sell_pass, eps, mkBuy, mkSell,
      List.foldl, total_remaining]
    all_goals decide
  · simp [total_buy, total_sell, mkBuy, mkSell, List.filter_cons]
    norm_num [min_def]

/-- C2 (amended): for every symbol and every transaction log whose
quantities are whole numbers and in which no prefix oversells the symbol
(`Σ SELL ≤ Σ BUY` for every prefix), the total remaining quantity after
replay equals `Σ BUY − min(Σ SELL, Σ BUY)`.  (Whole numbers are needed
because the engine's epsilon-tolerant comparison and dust filter can destroy
sub-epsilon amounts; the prefix condition is needed because oversold excess
is discarded at SELL time and is not replenished by later BUYs.) -/
theorem claim_C2_amended (txns : List Txn) (sym : String)
    (hw : ∀ t ∈ txns, IsWholeQty t.qty)
    (hp : ∀ k ≤ txns.length, total_sell sym (txns.take k) ≤ total_buy sym (txns.take k)) :
    total_remaining (compute_lots_from_db txns sym) =
      total_buy sym txns - min (total_sell sym txns) (total_buy sym txns) := by
  have hfull := hp txns.length le_rfl
  rw [List.take_length] at hfull
  rw [min_eq_left hfull]
  exact conservation_of_whole txns sym hw hp

/-- C2 (witness): the amended conservation law instantiated on the concrete
log `[BUY 2 A @3, SELL 1 A]`. -/
theorem claim_C2_witness :
    total_remaining (compute_lots_from_db [mkBuy "A" 2 (some 3), mkSell "A" 1] "A") =
      total_buy "A" [mkBuy "A" 2 (some 3), mkSell "A" 1] -
        min (total_sell "A" [mkBuy "A" 2 (some 3), mkSell "A" 1])
          (total_buy "A" [mkBuy "A" 2 (some 3), mkSell "A" 1]) := by
  refine claim_C2_amended _ "A" ?_ ?_
  · intro t ht
    rcases List.mem_cons.mp ht with h | h
    · rw [h]
      exact ⟨rfl, by norm_num [mkBuy]⟩
    · rcases List.mem_cons.mp h with h2 | h2
      · rw [h2]
        exact ⟨rfl, by norm_num [mkSell]⟩
      · simp at h2
  · intro k hk
    simp only [List.length_cons, List.length_nil] at hk
    interval_cases k <;>
      simp [total_buy, total_sell, mkBuy, mkSell, List.take_succ_cons, List.take_zero,
        List.filter_cons]

/-- C3: a SELL whose quantity strictly exceeds the symbol's total open
quantity silently discards the excess: the replay (a total function — there
is no error path) leaves the symbol with no open lots; in particular
`[BUY 10 A @5, SELL 20 A]` yields the empty lot list. -/
theorem claim_C3_oversell_clamp :
    (∀ (txns : List Txn) (sym : String) (q : ℚ),
        total_remaining (compute_lots_from_db txns sym) < q →
        compute_lots_from_db (txns ++ [mkSell sym q]) sym = []) ∧
    compute_lots_from_db [mkBuy "A" 10 (some 5), mkSell "A" 20] "A" = [] := by
  constructor
  · intro txns sym q hq
    rw [compute_lots_snoc_sell]
    exact apply_sell_all _ (lots_pos txns sym) q hq
  · norm_num [compute_lots_from_db, apply_txn, apply_sell, sell_pass, eps, mkBuy, mkSell,
      List.foldl]
    all_goals decide

/-- C3 (witness): the oversell clamp instantiated on the concrete log
`[BUY 10 B @5]` followed by `SELL 20 B`. -/
theorem claim_C3_witness :
    compute_lots_from_db ([mkBuy "B" 10 (some 5)] ++ [mkSell "B" 20]) "B" = [] :=
  claim_C3_oversell_clamp.1 [mkBuy "B" 10 (some 5)] "B" 20
    (by norm_num [compute_lots_from_db, apply_txn, mkBuy, List.foldl, total_remaining])

/-- C4 (counterexample): the dust filter `retain (q > EPSILON)` runs only in
the SELL arm, so a BUY of a sub-epsilon quantity that is never followed by a
SELL of its symbol survives the whole replay: the log `[BUY 2^-53 A @1]`
leaves the lot `(2^-53, 1)` whose remaining is at most epsilon. -/
theorem claim_C4_counterexample :
    compute_lots_from_db [mkBuy "A" (1 / 2 ^ 53) (some 1)] "A" = [(1 / 2 ^ 53, 1)] ∧
    (1 / 2 ^ 53 : ℚ) ≤ eps := by
  constructor
  · norm_num [compute_lots_from_db, apply_txn, mkBuy, List.foldl]
  · norm_num [eps]

/-- C4 (amended): provided every BUY quantity that the engine applies (i.e.
every positive BUY quantity) exceeds machine epsilon, every lot present in
the output of the replay has remaining quantity strictly greater than
epsilon. -/
theorem claim_C4_amended (txns : List Txn)
    (hb : ∀ t ∈ txns, t.kind = "BUY" → 0 < t.qty → eps < t.qty) (sym : String) :
    ∀ lp ∈ compute_lots_from_db txns sym, eps < lp.1 :=
  lots_gt_aux eps le_rfl txns hb (fun _ => []) (by intro s lp h; simp at h) sym

/-- C4 (witness): the amended invariant instantiated on `[BUY 1 A @2]` and
its surviving lot `(1, 2)`. -/
theorem claim_C4_witness : eps < ((1 : ℚ), (2 : ℚ)).1 :=
  claim_C4_amended [mkBuy "A" 1 (some 2)]
    (by
      intro t ht _ _
      rcases List.mem_cons.mp ht with h | h
      · rw [h]
        norm_num [mkBuy, eps]
      · simp at h)
    "A" ((1 : ℚ), (2 : ℚ))
    (by norm_num [compute_lots_from_db, apply_txn, mkBuy, List.foldl])

/-- C9: a SELL with quantity at most zero is clamped to zero
(`qty.max(0.0)`) and consumes nothing; the only effect of replaying it is the
unconditional dust filter, so the symbol's lot list becomes its own
restriction to lots with remaining strictly above epsilon — every such lot is
left unchanged, in value and in order. -/
theorem claim_C9_nonpositive_sell (txns : List Txn) (sym : String) (q : ℚ)
    (hq : q ≤ 0) :
    compute_lots_from_db (txns ++ [mkSell sym q]) sym =
      (compute_lots_from_db txns sym).filter (fun lp => decide (eps < lp.1)) := by
  rw [compute_lots_snoc_sell]
  unfold apply_sell
  rw [max_eq_right hq, sell_pass_nonpos 0 (by norm_num) _]

/-- C9 (witness): a SELL of `-3` after `[BUY 5 A @2]` leaves exactly the
epsilon-filtered lot list. -/
theorem claim_C9_witness :
    compute_lots_from_db ([mkBuy "A" 5 (some 2)] ++ [mkSell "A" (-3)]) "A" =
      (compute_lots_from_db [mkBuy "A" 5 (some 2)] "A").filter
        (fun lp => decide (eps < lp.1)) :=
  claim_C9_nonpositive_sell [mkBuy "A" 5 (some 2)] "A" (-3) (by norm_num)

/- ### Portfolio builder (`build_portfolio_update_from_lots`) -/

/-- The `Position` struct of `src/bin/valuation-service.rs`. -/
structure Position where
  symbol : String
  quantity : ℚ
  price : ℚ
  value : ℚ
  average_cost : ℚ
  pnl : ℚ
  pnl_percent : ℚ

/-- The per-lot `Position` constructed inside the loop of
`build_portfolio_update_from_lots` (`valuation-service.rs:556-569`):
`price = existing_prices.get(symbol).unwrap_or(0)`, `value = price * qty`,
`pnl = (price - avg) * qty`, and the guarded `pnl_percent`. -/
def position_of_lot (existing_prices : List (String × ℚ)) (sym : String)
    (qa : ℚ × ℚ) : Position :=
  let price := (existing_prices.lookup sym).getD 0
  { symbol := sym
    quantity := qa.1
    price := price
    value := price * qa.1
    average_cost := qa.2
    pnl := (price - qa.2) * qa.1
    pnl_percent := if 0 < qa.2 then (price - qa.2) / qa.2 * 100 else 0 }

/-- The `PortfolioUpdate` struct: timestamp, aggregated value and the
per-lot positions. -/
structure PortfolioUpdate where
  timestamp : String
  portfolio_value : ℚ
  positions : List Position

/-- `build_portfolio_update_from_lots` (`valuation-service.rs:549-574`):
iterate the lot map (modelled as an association list fixing the iteration
order), skip lots with `qty ≤ 0`, build one `Position` per lot, and set
`portfolio_value` to the sum of the positions' `value` fields.  The
`Utc::now()` timestamp is passed in as `now`. -/
def build_portfolio_update_from_lots (lots : List (String × List (ℚ × ℚ)))
    (existing_prices : List (String × ℚ)) (now : String) : PortfolioUpdate :=
  let positions := lots.flatMap (fun sl =>
    (sl.2.filter (fun qa => decide (0 < qa.1))).map
      (position_of_lot existing_prices sl.1))
  { timestamp := now
    portfolio_value := (positions.map Position.value).sum
    positions := positions }

/-- C5: for every snapshot produced by the portfolio builder,
`portfolio_value` is exactly the sum of the positions' `value` fields, on
the aggregation order used, and every position's `value` equals its `price`
times its `quantity`. -/
theorem claim_C5_portfolio_value_sum (lots : List (String × List (ℚ × ℚ)))
    (existing_prices : List (String × ℚ)) (now : String) :
    (build_portfolio_update_from_lots lots existing_prices now).portfolio_value =
      ((build_portfolio_update_from_lots lots existing_prices now).positions.map
        Position.value).sum ∧
    (build_portfolio_update_from_lots lots existing_prices now).positions.map
        Position.value =
      (build_portfolio_update_from_lots lots existing_prices now).positions.map
        (fun p => p.price * p.quantity) := by
  constructor
  · rfl
  · refine List.map_congr_left ?_
    intro p hp
    simp only [build_portfolio_update_from_lots, List.mem_flatMap, List.mem_map,
      List.mem_filter] at hp
    obtain ⟨sl, _, qa, _, rfl⟩ := hp
    rfl

/- ### Risk engine (`RiskEngine`) -/

/-- Rust's `as usize` cast of a non-negative `f64` (truncation; negative
values saturate to zero), on exact rationals. -/
def castIdx (x : ℚ) : ℕ := (⌊x⌋).toNat

/-- `RiskEngine::calculate_var` (`risk.rs:22-34`): error on an empty vector,
else sort ascending, pick index `((1 - confidence) * N) as usize` clamped by
`min` to the last index, and negate the return found there.  The in-bounds
access `sorted_returns[...]` is modelled with `getD _ 0`; the index is
proved in bounds in the theorems below.  Rust's stable `sort_by` and
insertion sort agree on ordered keys. -/
def calculate_var (confidence_level : ℚ) (returns : List ℚ) : Except String ℚ :=
  if returns = [] then .error "Empty returns vector"
  else
    let sorted_returns := List.insertionSort (· ≤ ·) returns
    let index := castIdx ((1 - confidence_level) * returns.length)
    .ok (-(sorted_returns.getD (min index (sorted_returns.length - 1)) 0))

/-- `RiskEngine::calculate_expected_shortfall` (`risk.rs:36-53`): error on an
empty vector, else sort ascending, take the leftmost `cutoff + 1` returns and
negate their mean (with the code's guard returning `0` for an empty tail). -/
def calculate_expected_shortfall (confidence_level : ℚ) (returns : List ℚ) :
    Except String ℚ :=
  if returns = [] then .error "Empty returns vector"
  else
    let sorted_returns := List.insertionSort (· ≤ ·) returns
    let cutoff_index := castIdx ((1 - confidence_level) * returns.length)
    let tail_returns := sorted_returns.take (cutoff_index + 1)
    if tail_returns = [] then .ok 0
    else .ok (-tail_returns.sum / tail_returns.length)

/-- In an ascending list, the sum of the first `k + 1` entries is at most
`k + 1` times the entry at index `k`. -/
theorem sum_take_le_get (l : List ℚ) (hs : l.Sorted (· ≤ ·)) :
    ∀ k (hk : k < l.length),
      (l.take (k + 1)).sum ≤ ((k : ℚ) + 1) * l.get ⟨k, hk⟩ := by
  induction l with
  | nil => intro k hk; simp at hk
  | cons x tl ih =>
    intro k hk
    rw [List.sorted_cons] at hs
    match k with
    | 0 => simp
    | k + 1 =>
      have hk' : k < tl.length := by
        simp only [List.length_cons] at hk
        omega
      have hx : x ≤ tl.get ⟨k, hk'⟩ := hs.1 _ (tl.get_mem _ _)
      have hih := ih hs.2 k hk'
      have hget : (x :: tl).get ⟨k + 1, hk⟩ = tl.get ⟨k, hk'⟩ := rfl
      rw [hget]
      have hsum : ((x :: tl).take (k + 1 + 1)).sum = x + (tl.take (k + 1)).sum := by
        simp [List.take_succ_cons]
      rw [hsum]
      have hnn : (0 : ℚ) ≤ (k : ℚ) := by positivity
      push_cast
      push_cast at hih
      nlinarith [hih, hx, hnn]

/-- C7: for every non-empty returns vector and every confidence level
`α ∈ (0, 1)`, both risk calculations succeed and the expected shortfall (the
negated mean of the leftmost `⌊(1−α)·N⌋ + 1` sorted returns) is at least the
historical VaR (the negated sorted return at the clamped index
`⌊(1−α)·N⌋`). -/
theorem claim_C7_es_ge_var (returns : List ℚ) (confidence_level : ℚ)
    (hne : returns ≠ []) (h0 : 0 < confidence_level) (h1 : confidence_level < 1) :
    (calculate_var confidence_level returns).isOk = true ∧
    (calculate_expected_shortfall confidence_level returns).isOk = true ∧
    ∀ v es, calculate_var confidence_level returns = .ok v →
      calculate_expected_shortfall confidence_level returns = .ok es → v ≤ es := by
  have hN : 0 < returns.length := List.length_pos.mpr hne
  set sorted := List.insertionSort (· ≤ ·) returns with hsorted
  have hlen : sorted.length = returns.length :=
    (List.perm_insertionSort (· ≤ ·) returns).length_eq
  set k := castIdx ((1 - confidence_level) * returns.length) with hkdef
  have hkN : k < returns.length := by
    have hlt : (1 - confidence_level) * (returns.length : ℚ) < returns.length := by
      have hpos : (0 : ℚ) < (returns.length : ℚ) := by exact_mod_cast hN
      nlinarith
    have hfl : (⌊(1 - confidence_level) * (returns.length : ℚ)⌋ : ℚ) ≤
        (1 - confidence_level) * (returns.length : ℚ) := Int.floor_le _
    have hfl2 : ⌊(1 - confidence_level) * (returns.length : ℚ)⌋ < (returns.length : ℤ) := by
      have : (⌊(1 - confidence_level) * (returns.length : ℚ)⌋ : ℚ) <
          (returns.length : ℚ) := lt_of_le_of_lt hfl hlt
      exact_mod_cast this
    unfold castIdx at hkdef
    omega
  have hkS : k < sorted.length := by rw [hlen]; exact hkN
  have hmin : min k (sorted.length - 1) = k := by omega
  have hvar : calculate_var confidence_level returns = .ok (-(sorted.get ⟨k, hkS⟩)) := by
    unfold calculate_var
    rw [if_neg hne]
    simp only [← hsorted, ← hkdef, hmin]
    rw [List.getD_eq_getElem sorted 0 hkS]
    rfl
  have htail_len : (sorted.take (k + 1)).length = k + 1 := by
    rw [List.length_take]
    omega
  have htail_ne : sorted.take (k + 1) ≠ [] := by
    intro h
    rw [h] at htail_len
    simp at htail_len
  have hsum : (sorted.take (k + 1)).sum ≤ ((k : ℚ) + 1) * sorted.get ⟨k, hkS⟩ :=
    sum_take_le_get sorted (List.sorted_insertionSort (· ≤ ·) returns) k hkS
  have hes : calculate_expected_shortfall confidence_level returns =
      .ok (-(sorted.take (k + 1)).sum / ((k : ℚ) + 1)) := by
    unfold calculate_expected_shortfall
    rw [if_neg hne]
    simp only [← hsorted, ← hkdef]
    rw [if_neg htail_ne, htail_len]
    push_cast
    rfl
  refine ⟨by rw [hvar]; rfl, by rw [hes]; rfl, ?_⟩
  intro v es hv hesq
  rw [hvar] at hv
  rw [hes] at hesq
  simp only [Except.ok.injEq] at hv hesq
  subst hv
  subst hesq
  have hk1 : (0 : ℚ) < (k : ℚ) + 1 := by positivity
  rw [neg_div, le_neg]
  rw [div_le_iff₀ hk1]
  linarith

/-- C7 (witness): with returns `[-1, 0, 1]` and confidence level `3/4`, VaR
and expected shortfall are both `1`, and the inequality holds. -/
theorem claim_C7_witness :
    calculate_var (3 / 4) [-1, 0, 1] = .ok 1 ∧
    calculate_expected_shortfall (3 / 4) [-1, 0, 1] = .ok 1 ∧
    (1 : ℚ) ≤ 1 := by
  refine ⟨?_, ?_, ?_⟩
  · norm_num [calculate_var, castIdx, List.insertionSort, List.orderedInsert]
    all_goals (intro h; simp at h)
  · norm_num [calculate_expected_shortfall, castIdx, List.insertionSort,
      List.orderedInsert]
    all_goals (intro h; simp at h)
  · exact (claim_C7_es_ge_var [-1, 0, 1] (3 / 4) (by simp) (by norm_num)
      (by norm_num)).2.2 1 1
      (by norm_num [calculate_var, castIdx, List.insertionSort, List.orderedInsert]
          <;> (intro h; simp at h))
      (by norm_num [calculate_expected_shortfall, castIdx, List.insertionSort,
            List.orderedInsert]
          <;> (intro h; simp at h))

/- ### Portfolio valuator (`PortfolioValuationService`) -/

/-- The fields of `PositionValuation` (`portfolio.rs:38-48`) that the
performance calculation reads. -/
structure PositionValuation where
  quantity : ℚ
  total_value : ℚ
  pnl : Option ℚ
  pnl_percentage : Option ℚ
deriving DecidableEq

/-- The per-position valuation step of `value_portfolio`
(`portfolio.rs:144-168`), starting from the already computed `unit_value`:
`total_value = unit_value * quantity`, and P&L only when `average_cost` is
present, with `pnl = total_value - avg_cost * quantity`. -/
def position_valuation (quantity : ℚ) (average_cost : Option ℚ)
    (unit_value : ℚ) : PositionValuation :=
  let position_total_value := unit_value * quantity
  match average_cost with
  | some avg_cost =>
    let total_cost := avg_cost * quantity
    let pnl := position_total_value - total_cost
    { quantity := quantity
      total_value := position_total_value
      pnl := some pnl
      pnl_percentage := some (if total_cost ≠ 0 then pnl / total_cost * 100 else 0) }
  | none =>
    { quantity := quantity
      total_value := position_total_value
      pnl := none
      pnl_percentage := none }

/-- `PortfolioPerformance` (`portfolio.rs:50-59`); the historical fields are
always `None` in `calculate_portfolio_performance`. -/
structure PortfolioPerformance where
  total_return : ℚ
  total_return_percentage : ℚ
  daily_return : Option ℚ
  daily_return_percentage : Option ℚ
  sharpe_ratio : Option ℚ
  max_drawdown : Option ℚ
  volatility : Option ℚ
deriving DecidableEq

/-- The accumulation loop of `calculate_portfolio_performance`
(`portfolio.rs:250-260`): running `(total_cost, total_value, has_cost_data)`.
`total_value` always accumulates; `total_cost` and the flag only for
positions whose `pnl` is present. -/
def perf_scan (positions : List PositionValuation) : ℚ × ℚ × Bool :=
  positions.foldl
    (fun acc p =>
      match p.pnl with
      | some pnl => (acc.1 + (p.total_value - pnl), acc.2.1 + p.total_value, true)
      | none => (acc.1, acc.2.1 + p.total_value, acc.2.2))
    (0, 0, false)

/-- `PortfolioValuationService::calculate_portfolio_performance`
(`portfolio.rs:245-278`): `None` for an empty position list, `None` when no
position carried cost data or the accumulated cost is zero, otherwise the
total return and its percentage. -/
def calculate_portfolio_performance (positions : List PositionValuation) :
    Option PortfolioPerformance :=
  if positions = [] then none
  else
    let acc := perf_scan positions
    let total_cost := acc.1
    let total_value := acc.2.1
    let has_cost_data := acc.2.2
    if ¬ has_cost_data ∨ total_cost = 0 then none
    else
      let total_return := total_value - total_cost
      some
        { total_return := total_return
          total_return_percentage := total_return / total_cost * 100
          daily_return := none
          daily_return_percentage := none
          sharpe_ratio := none
          max_drawdown := none
          volatility := none }

/-- Specification-side total cost: the sum of `total_value - pnl` over the
positions that carry a `pnl`. -/
def spec_total_cost (positions : List PositionValuation) : ℚ :=
  (positions.filterMap (fun p => p.pnl.map (fun pnl => p.total_value - pnl))).sum

/-- Specification-side total value: the sum of all positions' values. -/
def spec_total_value (positions : List PositionValuation) : ℚ :=
  (positions.map PositionValuation.total_value).sum

theorem perf_scan_eq_spec (positions : List PositionValuation) :
    perf_scan positions =
      (spec_total_cost positions, spec_total_value positions,
        positions.any (fun p => p.pnl.isSome)) := by
  suffices h : ∀ (acc : ℚ × ℚ × Bool),
      positions.foldl
        (fun acc p =>
          match p.pnl with
          | some pnl => (acc.1 + (p.total_value - pnl), acc.2.1 + p.total_value, true)
          | none => (acc.1, acc.2.1 + p.total_value, acc.2.2))
        acc =
      (acc.1 + spec_total_cost positions, acc.2.1 + spec_total_value positions,
        acc.2.2 || positions.any (fun p => p.pnl.isSome)) by
    have := h (0, 0, false)
    simpa [perf_scan] using this
  induction positions with
  | nil => intro acc; simp [spec_total_cost, spec_total_value]
  | cons p tl ih =>
    intro acc
    rcases hp : p.pnl with _ | pnl
    · simp only [List.foldl_cons, hp]
      rw [ih]
      simp [spec_total_cost, spec_total_value, hp, add_assoc]
    · simp only [List.foldl_cons, hp]
      rw [ih]
      simp [spec_total_cost, spec_total_value, hp, add_assoc]

/-- C8 (counterexample): performance metrics are not suppressed when a
position lacks `avg_cost`.  With one position that has cost data
(`quantity 1, avg_cost 1, unit value 10`) and one that does not
(`quantity 1, no avg_cost, unit value 5`), the code still returns
a performance record, while the claim requires the field to be absent. -/
theorem claim_C8_counterexample :
    (calculate_portfolio_performance
        [position_valuation 1 (some 1) 10, position_valuation 1 none 5]).isSome = true ∧
    (position_valuation 1 none 5).pnl = none ∧
    position_valuation 1 none 5 ∈
      [position_valuation 1 (some 1) 10, position_valuation 1 none 5] := by
  refine ⟨?_, rfl, by simp⟩
  norm_num [calculate_portfolio_performance, perf_scan, position_valuation, List.foldl]
  all_goals simp

/-- C8 (amended): via the valuation pipeline a position's `pnl` is present
exactly when its `avg_cost` is, and then `total_value - pnl = avg_cost ·
quantity`; the performance record is produced if and only if the position
list is non-empty, at least one position carries cost data, and the
accumulated cost `Σ (total_value - pnl)` over those positions is non-zero —
in which case `total_return = total_value - total_cost` (with `total_value`
summed over all positions) and `total_return_percent =
100 · total_return / total_cost`. -/
theorem claim_C8_amended :
    (∀ q a u : ℚ, (position_valuation q (some a) u).pnl =
        some ((position_valuation q (some a) u).total_value - a * q)) ∧
    (∀ q u : ℚ, (position_valuation q none u).pnl = none) ∧
    ∀ positions : List PositionValuation,
      calculate_portfolio_performance positions =
        if positions ≠ [] ∧ positions.any (fun p => p.pnl.isSome) = true ∧
            spec_total_cost positions ≠ 0 then
          some
            { total_return := spec_total_value positions - spec_total_cost positions
              total_return_percentage :=
                (spec_total_value positions - spec_total_cost positions) /
                  spec_total_cost positions * 100
              daily_return := none
              daily_return_percentage := none
              sharpe_ratio := none
              max_drawdown := none
              volatility := none }
        else none := by
  refine ⟨fun q a u => rfl, fun q u => rfl, ?_⟩
  intro positions
  unfold calculate_portfolio_performance
  rw [perf_scan_eq_spec]
  by_cases hnil : positions = []
  · subst hnil
    simp
  · rw [if_neg hnil]
    by_cases hany : positions.any (fun p => p.pnl.isSome) = true
    · by_cases hcost : spec_total_cost positions = 0
      · rw [if_pos (by simp [hany, hcost]), if_neg (by simp [hnil, hany, hcost])]
      · rw [if_neg (by simp [hany, hcost]), if_pos (by simp [hnil, hany, hcost])]
    · rw [if_pos (by simp [hany]), if_neg (by simp [hnil, hany])]

/- ### Analytic pricer (`BlackScholesModel`, `src/models.rs`)

Prices and market parameters are modelled over `ℝ`.  The standard normal CDF
`Φ` and PDF `φ` (the `statrs` `Normal::new(0.0, 1.0)` object, whose
construction with these constant arguments cannot fail — the `map_err` branch
of the source is dead for them) are passed as function parameters; the
claims below hold for every choice of them. -/

/-- `OptionType` (`src/instruments.rs`). -/
inductive OptionType where
  | Call : OptionType
  | Put : OptionType

/-- The `Greeks` record (optional per-Greek values). -/
structure Greeks where
  delta : Option ℝ
  gamma : Option ℝ
  theta : Option ℝ
  vega : Option ℝ
  rho : Option ℝ

/-- `BlackScholesModel::black_scholes_price` (`models.rs:15-50`): intrinsic
value for `time_to_expiry ≤ 0`, otherwise the closed-form formula with
`d₁, d₂`. -/
noncomputable def black_scholes_price (Φ : ℝ → ℝ) (spot strike time_to_expiry
    risk_free_rate volatility : ℝ) (option_type : OptionType)
    (dividend_yield : ℝ) : ℝ :=
  if time_to_expiry ≤ 0 then
    match option_type with
    | .Call => max (spot - strike) 0
    | .Put => max (strike - spot) 0
  else
    let d1 := (Real.log (spot / strike) +
        (risk_free_rate - dividend_yield + 0.5 * volatility ^ 2) * time_to_expiry) /
      (volatility * Real.sqrt time_to_expiry)
    let d2 := d1 - volatility * Real.sqrt time_to_expiry
    match option_type with
    | .Call =>
        spot * Real.exp (-dividend_yield * time_to_expiry) * Φ d1 -
          strike * Real.exp (-risk_free_rate * time_to_expiry) * Φ d2
    | .Put =>
        strike * Real.exp (-risk_free_rate * time_to_expiry) * Φ (-d2) -
          spot * Real.exp (-dividend_yield * time_to_expiry) * Φ (-d1)

/-- `BlackScholesModel::calculate_greeks_bs` (`models.rs:52-120`): all five
Greeks are `Some 0` for `time_to_expiry ≤ 0`, otherwise the analytic
formulas (with `theta` converted to daily by dividing by 365). -/
noncomputable def calculate_greeks_bs (Φ φ : ℝ → ℝ) (spot strike time_to_expiry
    risk_free_rate volatility : ℝ) (option_type : OptionType)
    (dividend_yield : ℝ) : Greeks :=
  if time_to_expiry ≤ 0 then
    { delta := some 0, gamma := some 0, theta := some 0, vega := some 0, rho := some 0 }
  else
    let d1 := (Real.log (spot / strike) +
        (risk_free_rate - dividend_yield + 0.5 * volatility ^ 2) * time_to_expiry) /
      (volatility * Real.sqrt time_to_expiry)
    let d2 := d1 - volatility * Real.sqrt time_to_expiry
    let phi_d1 := φ d1
    let n_d1 := Φ d1
    let n_d2 := Φ d2
    let delta := match option_type with
      | .Call => Real.exp (-dividend_yield * time_to_expiry) * n_d1
      | .Put => Real.exp (-dividend_yield * time_to_expiry) * (n_d1 - 1)
    let gamma := Real.exp (-dividend_yield * time_to_expiry) * phi_d1 /
      (spot * volatility * Real.sqrt time_to_expiry)
    let theta := match option_type with
      | .Call =>
          -spot * phi_d1 * volatility * Real.exp (-dividend_yield * time_to_expiry) /
              (2 * Real.sqrt time_to_expiry) -
            risk_free_rate * strike * Real.exp (-risk_free_rate * time_to_expiry) * n_d2 +
            dividend_yield * spot * Real.exp (-dividend_yield * time_to_expiry) * n_d1
      | .Put =>
          -spot * phi_d1 * volatility * Real.exp (-dividend_yield * time_to_expiry) /
              (2 * Real.sqrt time_to_expiry) +
            risk_free_rate * strike * Real.exp (-risk_free_rate * time_to_expiry) * Φ (-d2) -
            dividend_yield * spot * Real.exp (-dividend_yield * time_to_expiry) * Φ (-d1)
    let vega := spot * Real.exp (-dividend_yield * time_to_expiry) * phi_d1 *
      Real.sqrt time_to_expiry / 100
    let rho := match option_type with
      | .Call =>
          strike * time_to_expiry * Real.exp (-risk_free_rate * time_to_expiry) * n_d2 / 100
      | .Put =>
          -strike * time_to_expiry * Real.exp (-risk_free_rate * time_to_expiry) *
            Φ (-d2) / 100
    { delta := some delta, gamma := some gamma, theta := some (theta / 365),
      vega := some vega, rho := some rho }

/-- C6: for an expired or exactly-at-expiry European option (`τ ≤ 0`) and
every choice of spot, strike, rate, volatility, dividend yield (and of the
normal CDF/PDF), the analytic price is the intrinsic value — `max (S−K) 0`
for a Call and `max (K−S) 0` for a Put — and all five analytic Greeks are
zero. -/
theorem claim_C6_expired_option_intrinsic (Φ φ : ℝ → ℝ)
    (S K τ r σ q : ℝ) (hτ : τ ≤ 0) :
    black_scholes_price Φ S K τ r σ .Call q = max (S - K) 0 ∧
    black_scholes_price Φ S K τ r σ .Put q = max (K - S) 0 ∧
    calculate_greeks_bs Φ φ S K τ r σ .Call q =
      { delta := some 0, gamma := some 0, theta := some 0, vega := some 0,
        rho := some 0 } ∧
    calculate_greeks_bs Φ φ S K τ r σ .Put q =
      { delta := some 0, gamma := some 0, theta := some 0, vega := some 0,
        rho := some 0 } := by
  unfold black_scholes_price calculate_greeks_bs
  rw [if_pos hτ, if_pos hτ, if_pos hτ, if_pos hτ]
  exact ⟨rfl, rfl, rfl, rfl⟩

/-- C6 (witness): at `τ = 0`, `S = 3`, `K = 1`, the Call prices to its
intrinsic value and the Greeks are zero. -/
theorem claim_C6_witness :
    black_scholes_price (fun _ => 0) 3 1 0 0 0 .Call 0 = max ((3 : ℝ) - 1) 0 ∧
    calculate_greeks_bs (fun _ => 0) (fun _ => 0) 3 1 0 0 0 .Call 0 =
      { delta := some 0, gamma := some 0, theta := some 0, vega := some 0,
        rho := some 0 } := by
  have h := claim_C6_expired_option_intrinsic (fun _ => 0) (fun _ => 0)
    3 1 0 0 0 0 le_rfl
  exact ⟨h.1, h.2.2.1⟩

/- ### Stock valuation (`BlackScholesModel::value`, Stock arm) -/

/-- The error kinds of `ValuationError` that the `value` implementation can
produce (`models.rs:124-185`). -/
inductive ValuationErrorKind where
  | invalidInstrument : ValuationErrorKind
  | marketData : ValuationErrorKind
  | pricingModel : ValuationErrorKind
deriving DecidableEq

/-- `MarketContext` — the fields the Stock arm can touch. -/
structure MarketContext where
  risk_free_rate : ℝ
  dividend_yield : Option ℝ
  volatility : Option ℝ
  spot_price : Option ℝ

/-- The outcome fields of `ValuationResult` relevant to the Stock arm
(identification strings and the timestamp are omitted). -/
structure ValuationResult where
  value : ℝ
  confidence : ℝ
  greeks : Option Greeks

/-- The `InstrumentType::Stock` arm of `BlackScholesModel::value`
(`models.rs:167-182`): `spot = context.spot_price.ok_or(MarketData)?`, then
`Ok { value: spot * notional, confidence: 0.99, greeks: None }`.  Volatility
and dividend yield are never consulted. -/
def value_stock (context : MarketContext) (notional : ℝ) :
    Except ValuationErrorKind ValuationResult :=
  match context.spot_price with
  | none => .error .marketData
  | some spot => .ok { value := spot * notional, confidence := 0.99, greeks := none }

/-- C10: valuing a Stock fails, with a `MarketData` error, exactly when the
context lacks a spot price; with a spot price present it succeeds — whatever
the volatility and dividend-yield fields hold — with value
`spot * notional` and no Greeks. -/
theorem claim_C10_stock_valuation (context : MarketContext) (notional : ℝ) :
    (value_stock context notional = .error .marketData ↔
      context.spot_price = none) ∧
    (∀ s : ℝ, context.spot_price = some s →
      value_stock context notional =
        .ok { value := s * notional, confidence := 0.99, greeks := none }) := by
  constructor
  · rcases h : context.spot_price with _ | s
    · simp [value_stock, h]
    · simp [value_stock, h]
  · intro s hs
    simp [value_stock, hs]

/-- A sample market context carrying a spot price but neither volatility nor
dividend yield. -/
def spot_only_context : MarketContext :=
  { risk_free_rate := 0.05, dividend_yield := none, volatility := none,
    spot_price := some 3 }

/-- C10 (witness): a context with a spot price but with volatility and
dividend yield both absent values a stock of notional `2` at `3 * 2`. -/
theorem claim_C10_witness :
    value_stock spot_only_context 2 =
      .ok { value := (3 : ℝ) * 2, confidence := 0.99, greeks := none } :=
  (claim_C10_stock_valuation spot_only_context 2).2 3 rfl

end ValuationService
